import Mathlib

/-!
Verification of the evolutionary-optimization core of `neurolib`
(`neurolib/optimize/evolution/evolution.py`), as a shallow embedding.

Numeric fitness components are modelled by `EFloat`: a rational for a
finite float, plus the three non-finite values `nan`, `inf`, `ninf`
that drive the validity triage.  Individuals are records mirroring the
dynamic attributes the Python code attaches to `deap` individuals.
Fallible code paths (Python `assert`, `AttributeError`, `IndexError`)
are modelled with `Except String`.
-/

/-- A float as seen by the validity triage: finite (exact rational),
NaN, +Inf or -Inf. -/
inductive EFloat where
  | fin (q : ℚ)
  | nan
  | inf
  | ninf
deriving DecidableEq, Repr

namespace EFloat

/-- `np.isnan(x) or np.isinf(x)` for one component. -/
def isInvalid : EFloat → Bool
  | .fin _ => false
  | _ => true

/-- Multiplication of a fitness component by a (finite) weight, with
IEEE-754 semantics on the non-finite values (`0 * inf = nan`).  This is
what `deap`'s `wvalues = values * weights` computes componentwise. -/
def scale (w : ℚ) : EFloat → EFloat
  | .fin q => .fin (w * q)
  | .nan => .nan
  | .inf => if 0 < w then .inf else if w < 0 then .ninf else .nan
  | .ninf => if 0 < w then .ninf else if w < 0 then .inf else .nan

end EFloat

/-- A numpy masked-array reduction result: a plain number, or the
masked sentinel `np.ma.masked` that numpy returns when reducing data
whose every element is masked. -/
inductive MaskedVal where
  | val (q : ℚ)
  | masked
deriving DecidableEq, Repr

/-- Division of a masked-array scalar by a number: the masked sentinel
absorbs arithmetic (`np.ma.masked / n` is still `masked`). -/
def MaskedVal.div : MaskedVal → ℚ → MaskedVal
  | .val q, n => .val (q / n)
  | .masked, _ => .masked

/-- Sum of the finite components of a vector (the unmasked data of
`np.ma.masked_invalid(xs)`). -/
def finiteSum : List EFloat → ℚ
  | [] => 0
  | .fin q :: rest => q + finiteSum rest
  | _ :: rest => finiteSum rest

/-- `np.ma.masked_invalid(xs).sum()`: the sum of the finite components,
with the NaN/Inf components masked out — except that when the vector is
nonempty and every component is masked, numpy returns the masked
sentinel `np.ma.masked` rather than 0 (an empty vector sums to 0). -/
def maskedInvalidSum (xs : List EFloat) : MaskedVal :=
  if !xs.isEmpty && xs.all EFloat.isInvalid then .masked else .val (finiteSum xs)

/-- An individual of the evolution: a genome plus the identity, lineage
and fitness attributes that `evolution.py` attaches dynamically.
`none` models a Python attribute that is not set (or was `del`eted). -/
structure Individual where
  genome : List ℚ
  id : Option ℕ := none
  gIdx : Option ℕ := none
  parentIds : Option (ℕ × ℕ) := none
  /-- `fitness.values`; `none` when unset or deleted. -/
  fitness : Option (List EFloat) := none
  /-- `fitness.score`, set at evaluation time; a fully-invalid weighted
  fitness vector stores the masked sentinel. -/
  score : Option MaskedVal := none
  /-- opaque simulation output payload, modelled as a number. -/
  outputs : Option ℕ := none
  simulation_stored : Bool := false
deriving DecidableEq, Repr

namespace Individual

/-- `p.fitness.values` as read by the triage (`deap` returns the empty
tuple when the fitness is unset). -/
def fitnessValues (p : Individual) : List EFloat := p.fitness.getD []

/-- `np.isnan(p.fitness.values).any() or np.isinf(p.fitness.values).any()`. -/
def isInvalidInd (p : Individual) : Bool := p.fitnessValues.any EFloat.isInvalid

end Individual

/-- A brand-new individual as produced by `toolbox.population` /
`toolbox.individual`: only a genome, no tags yet. -/
def freshIndividual (genome : List ℚ) : Individual := { genome := genome }

/-- `Evolution.getValidPopulation`. -/
def getValidPopulation (pop : List Individual) : List Individual :=
  pop.filter (fun p => !p.isInvalidInd)

/-- `Evolution.getInvalidPopulation`. -/
def getInvalidPopulation (pop : List Individual) : List Individual :=
  pop.filter (fun p => p.isInvalidInd)

/-- `Evolution.tagPopulation`: walk the population in order; an
individual that already carries an id trips the
`assert not hasattr(ind, "id")`; otherwise the individual receives the
next id from the `last_id` counter, the current generation index, and
`simulation_stored = False`.  Returns the tagged population together
with the new value of the `last_id` counter. -/
def tagPopulation (last_id gIdx : ℕ) : List Individual → Except String (List Individual × ℕ)
  | [] => .ok ([], last_id)
  | ind :: rest =>
    if ind.id.isSome then
      .error "Individual has an id already, will not overwrite it!"
    else
      match tagPopulation (last_id + 1) gIdx rest with
      | .error e => .error e
      | .ok (rest', lid) =>
        .ok ({ ind with
               id := some last_id
               gIdx := some gIdx
               simulation_stored := false } :: rest', lid)

/-- The weighted values `fitness.wvalues` of `deap`:
componentwise product of the raw fitness values with the weight list
(truncating zip, as Python's `map(mul, values, weights)`). -/
def wvaluesOf (weightList : List ℚ) (fitness : List EFloat) : List EFloat :=
  List.zipWith EFloat.scale weightList fitness

/-- The score computation of `Evolution.evalPopulationUsingPypet`:
`np.ma.masked_invalid(wvalues).sum() / len(wvalues)`.  When every
weighted component is NaN/Inf the sum — and hence the stored score —
is the masked sentinel, not a number. -/
def computeScore (weightList : List ℚ) (fitness : List EFloat) : MaskedVal :=
  (maskedInvalidSum (wvaluesOf weightList fitness)).div
    ((wvaluesOf weightList fitness).length : ℚ)

/-- One backend result: `(runIndex, (fitnessesResult, returnedOutputs))`. -/
abbrev EvalResult := ℕ × (List EFloat × ℕ)

/-- Write one result onto one individual, as the loop body of
`evalPopulationUsingPypet` does: store the outputs, store the raw
fitness vector unchanged, and derive the score. -/
def applyResult (weightList : List ℚ) (ind : Individual) (r : EvalResult) : Individual :=
  { ind with
    outputs := some r.2.2
    fitness := some r.2.1
    score := some (computeScore weightList r.2.1) }

/-- The write-back loop of `evalPopulationUsingPypet`:
`for idx, result in enumerate(evolutionResult): ... pop[idx] ...`.
The result at position `idx` is written onto `pop[idx]`; the unpacked
`runIndex` of the result is not consulted.  Indexing past the end of
`pop` is Python's `IndexError`. -/
def writeResults (weightList : List ℚ) : List Individual → List EvalResult → Except String (List Individual)
  | pop, [] => .ok pop
  | [], _ :: _ => .error "IndexError: list index out of range"
  | ind :: rest, r :: rs =>
    match writeResults weightList rest rs with
    | .error e => .error e
    | .ok rest' => .ok (applyResult weightList ind r :: rest')

/-- `Evolution.evalPopulationUsingPypet`, after the backend's map call
returned `results`: `assert len(evolutionResult) > 0`, then the
positional write-back loop. -/
def evalPopulationUsingPypet (weightList : List ℚ) (pop : List Individual)
    (results : List EvalResult) : Except String (List Individual) :=
  if results.length = 0 then .error "No results returned from simulations."
  else writeResults weightList pop results

/-- The pairwise crossover loop of `runEvolution`
(`for i in range(1, len(offspring), 2)`): mate the pair, delete the
fitness values/wvalues copied from the parents (the `fitness.score`
attribute is not touched by the `del`s), record `parentIds` as the pair
of the two parents' ids, and delete the children's own ids (reading or
deleting a missing `id` attribute is Python's `AttributeError`).  An
odd trailing individual is carried through unmated. -/
def crossover (mate : Individual → Individual → Individual × Individual) :
    List Individual → Except String (List Individual)
  | a :: b :: rest =>
    match (mate a b).1.id, (mate a b).2.id with
    | some ida, some idb =>
      match crossover mate rest with
      | .error e => .error e
      | .ok rest' =>
        .ok ({ (mate a b).1 with
               fitness := none
               parentIds := some (ida, idb)
               id := none } ::
             { (mate a b).2 with
               fitness := none
               parentIds := some (ida, idb)
               id := none } :: rest')
    | _, _ => .error "AttributeError: id"
  | xs => .ok xs

/-- The pluggable operators and external collaborators the generation
loop calls out to: parent selection, mating, mutation
(`du.mutateUntilValid`, which perturbs genomes only), survivor
selection, the random-genome generator behind `toolbox.population`, and
the evaluation backend's per-generation result sequence. -/
structure Operators where
  selectParents : List Individual → ℕ → List Individual
  mate : Individual → Individual → Individual × Individual
  /-- Modelled from the spec: `du.mutateUntilValid` is not part of the
  sources; per §4.3 step 5 it applies the mutation operator to every
  offspring, perturbing the genome (with bounds retry) and nothing
  else. -/
  mutateGenome : List ℚ → List ℚ
  select : List Individual → ℕ → List Individual
  /-- genome of the `i`-th fresh random individual created in
  generation `g` by `toolbox.population`. -/
  newGenome : ℕ → ℕ → List ℚ
  /-- the result sequence `toolbox.map(toolbox.evaluate)` returns for
  the population submitted in generation `g`. -/
  evalResults : ℕ → List Individual → List EvalResult

/-- The run-scoped mutable state of `Evolution`. -/
structure EvolutionState where
  pop : List Individual
  last_id : ℕ
  gIdx : ℕ
  history : List (ℕ × List Individual)
  evaluationCounter : ℕ
deriving Repr

/-- The fresh random population `toolbox.population(n=...)`. -/
def newPopulation (ops : Operators) (g n : ℕ) : List Individual :=
  (List.range n).map (fun i => freshIndividual (ops.newGenome g i))

/-- One body iteration of the `for self.gIdx in range(...)` loop of
`Evolution.runEvolution`, for generation index `g`:
triage into valid/invalid, create and tag `len(invalid)` fresh random
replacements, select and clone parents, pairwise crossover, mutation,
tag the offspring, evaluate `offspring + newpop` through the backend
(in Python the evaluated individuals are the same objects that sit in
`offspring`/`newpop`, modelled by splitting the evaluated list back),
record `validpop + offspring + newpop` in the history under `g`, and
select the survivors from that same pool. -/
def generationStep (ops : Operators) (weightList : List ℚ) (POP_SIZE g : ℕ)
    (st : EvolutionState) : Except String EvolutionState :=
  let validpop := getValidPopulation st.pop
  let invalidpop := getInvalidPopulation st.pop
  match tagPopulation st.last_id g (newPopulation ops g invalidpop.length) with
  | .error e => .error e
  | .ok (newpop, lid1) =>
    match crossover ops.mate (ops.selectParents st.pop POP_SIZE) with
    | .error e => .error e
    | .ok crossed =>
      let mutated := crossed.map (fun ind => { ind with genome := ops.mutateGenome ind.genome })
      match tagPopulation lid1 g mutated with
      | .error e => .error e
      | .ok (offspring, lid2) =>
        let submitted := offspring ++ newpop
        match evalPopulationUsingPypet weightList submitted (ops.evalResults g submitted) with
        | .error e => .error e
        | .ok evaluated =>
          let offspringE := evaluated.take offspring.length
          let newpopE := evaluated.drop offspring.length
          .ok { pop := ops.select (validpop ++ offspringE ++ newpopE) POP_SIZE
                last_id := lid2
                gIdx := g
                history := st.history ++ [(g, validpop ++ offspringE ++ newpopE)]
                evaluationCounter := st.evaluationCounter + submitted.length }

/-- The generation indices the loop header
`for self.gIdx in range(self.gIdx + 1, self.gIdx + self.traj.NGEN)`
iterates over, starting from the current generation index `gIdx`. -/
def generationIndices (gIdx NGEN : ℕ) : List ℕ :=
  List.range' (gIdx + 1) (NGEN - 1)

/-- One loop iteration of `runEvolution` as seen by the fold: a fatal
error from an earlier generation aborts the run. -/
def runFoldStep (ops : Operators) (weightList : List ℚ) (POP_SIZE : ℕ)
    (acc : Except String EvolutionState) (g : ℕ) : Except String EvolutionState :=
  match acc with
  | .error e => .error e
  | .ok s => generationStep ops weightList POP_SIZE g s

/-- `Evolution.runEvolution`: run the generational loop over
`generationIndices`, threading the evolution state; any fatal error
aborts the run. -/
def runEvolution (ops : Operators) (weightList : List ℚ) (POP_SIZE NGEN : ℕ)
    (st : EvolutionState) : Except String EvolutionState :=
  (generationIndices st.gIdx NGEN).foldl (runFoldStep ops weightList POP_SIZE) (.ok st)

/-- The weighted score as the specification's words state it
(§4.2 / claim C5): the mean over all configured objectives of the
weighted fitness components, with NaN/Inf components masked to
contribute zero — `sum(masked_invalid(fitness .* weights)) / numObjectives`,
where the number of objectives is the length of the weight list. -/
def specWeightedScore (weightList : List ℚ) (fitness : List EFloat) : ℚ :=
  (List.zipWith EFloat.scale weightList fitness).foldr
    (fun x acc => (match x with | .fin q => q | _ => 0) + acc) 0
    / (weightList.length : ℚ)

/-! ### Helper lemmas -/

theorem finiteSum_eq_foldr (l : List EFloat) :
    finiteSum l =
      l.foldr (fun x acc => (match x with | .fin q => q | _ => 0) + acc) 0 := by
  induction l with
  | nil => rfl
  | cons x rest ih => cases x <;> simp [finiteSum, ih]

theorem maskedInvalidSum_of_not_all_invalid (l : List EFloat)
    (h : (∃ x ∈ l, x.isInvalid = false) ∨ l = []) :
    maskedInvalidSum l = .val (finiteSum l) := by
  rcases h with ⟨x, hx, hxv⟩ | rfl
  · rw [maskedInvalidSum, if_neg]
    intro hcond
    rw [Bool.and_eq_true, List.all_eq_true] at hcond
    rw [hcond.2 x hx] at hxv
    exact Bool.noConfusion hxv
  · rfl

theorem maskedInvalidSum_of_all_invalid (l : List EFloat)
    (hne : l ≠ []) (h : ∀ x ∈ l, x.isInvalid = true) :
    maskedInvalidSum l = .masked := by
  rw [maskedInvalidSum, if_pos]
  rw [Bool.and_eq_true, List.all_eq_true]
  exact ⟨by simp [List.isEmpty_iff, hne], h⟩

theorem computeScore_eq_spec (w : List ℚ) (fitness : List EFloat)
    (hlen : fitness.length = w.length)
    (h : (∃ x ∈ wvaluesOf w fitness, x.isInvalid = false) ∨ wvaluesOf w fitness = []) :
    computeScore w fitness = .val (specWeightedScore w fitness) := by
  unfold computeScore specWeightedScore
  rw [maskedInvalidSum_of_not_all_invalid _ h, MaskedVal.div, finiteSum_eq_foldr]
  unfold wvaluesOf
  rw [List.length_zipWith, hlen, min_self]

theorem computeScore_all_invalid (w : List ℚ) (fitness : List EFloat)
    (hne : wvaluesOf w fitness ≠ [])
    (h : ∀ x ∈ wvaluesOf w fitness, x.isInvalid = true) :
    computeScore w fitness = .masked := by
  unfold computeScore
  rw [maskedInvalidSum_of_all_invalid _ hne h, MaskedVal.div]

/-- The pure tagging function: what `tagPopulation` computes on a
population none of whose members carries an id yet. -/
def tagAssign (last_id gIdx : ℕ) : List Individual → List Individual
  | [] => []
  | p :: rest =>
    { p with
      id := some last_id
      gIdx := some gIdx
      simulation_stored := false } :: tagAssign (last_id + 1) gIdx rest

theorem tagAssign_length (g : ℕ) :
    ∀ (pop : List Individual) (last : ℕ), (tagAssign last g pop).length = pop.length := by
  intro pop
  induction pop with
  | nil => intro last; rfl
  | cons p rest ih => intro last; simp [tagAssign, ih]

theorem tagAssign_get (g : ℕ) :
    ∀ (pop : List Individual) (last i : ℕ) (h1 : i < pop.length)
      (h2 : i < (tagAssign last g pop).length),
      (tagAssign last g pop).get ⟨i, h2⟩ =
        { pop.get ⟨i, h1⟩ with
          id := some (last + i)
          gIdx := some g
          simulation_stored := false } := by
  intro pop
  induction pop with
  | nil => intro last i h1 _; exact absurd h1 (by simp)
  | cons p rest ih =>
    intro last i h1 h2
    cases i with
    | zero => rfl
    | succ j =>
      have h1' : j < rest.length := by simpa using h1
      have h2' : j < (tagAssign (last + 1) g rest).length := by
        rw [tagAssign_length]; exact h1'
      have := ih (last + 1) j h1' h2'
      simp only [tagAssign, List.get_cons_succ]
      rw [this]
      have : last + 1 + j = last + (j + 1) := by omega
      rw [this]

theorem tagAssign_map_id (g : ℕ) :
    ∀ (pop : List Individual) (last : ℕ),
      (tagAssign last g pop).map Individual.id = (List.range' last pop.length).map some := by
  intro pop
  induction pop with
  | nil => intro last; rfl
  | cons p rest ih =>
    intro last
    simp only [tagAssign, List.map_cons, List.length_cons, List.range', ih]

theorem tagPopulation_ok_of_fresh (g : ℕ) :
    ∀ (pop : List Individual) (last : ℕ), (∀ p ∈ pop, p.id = none) →
      tagPopulation last g pop = .ok (tagAssign last g pop, last + pop.length) := by
  intro pop
  induction pop with
  | nil => intro last _; rfl
  | cons p rest ih =>
    intro last h
    have hp : p.id = none := h p (by simp)
    have hrest : ∀ q ∈ rest, q.id = none := fun q hq => h q (by simp [hq])
    simp only [tagPopulation, hp, Option.isSome_none, Bool.false_eq_true, if_false,
      ih (last + 1) hrest, tagAssign]
    have : last + 1 + rest.length = last + (rest.length + 1) := by omega
    simp [this]

theorem tagPopulation_error_of_tagged (g : ℕ) :
    ∀ (pop : List Individual) (last : ℕ), (∃ p ∈ pop, p.id.isSome) →
      ∃ e, tagPopulation last g pop = .error e := by
  intro pop
  induction pop with
  | nil => intro last h; simp at h
  | cons p rest ih =>
    intro last h
    by_cases hp : p.id.isSome
    · exact ⟨"Individual has an id already, will not overwrite it!",
        by simp [tagPopulation, hp]⟩
    · obtain ⟨q, hq, hqs⟩ := h
      rcases List.mem_cons.mp hq with rfl | hq'
      · exact absurd hqs hp
      · obtain ⟨e, he⟩ := ih (last + 1) ⟨q, hq', hqs⟩
        exact ⟨e, by simp [tagPopulation, hp, he]⟩

theorem writeResults_ok_of_le (w : List ℚ) :
    ∀ (rs : List EvalResult) (pop : List Individual), rs.length ≤ pop.length →
      writeResults w pop rs =
        .ok (List.zipWith (applyResult w) pop rs ++ pop.drop rs.length) := by
  intro rs
  induction rs with
  | nil => intro pop _; simp [writeResults]
  | cons r rest ih =>
    intro pop h
    cases pop with
    | nil => simp at h
    | cons ind indrest =>
      have h' : rest.length ≤ indrest.length := by simpa using h
      simp [writeResults, ih indrest h']

theorem writeResults_ok_inv (w : List ℚ) :
    ∀ (pop : List Individual) (rs : List EvalResult) (out : List Individual),
      writeResults w pop rs = .ok out →
      rs.length ≤ pop.length ∧
        out = List.zipWith (applyResult w) pop rs ++ pop.drop rs.length := by
  intro pop
  induction pop with
  | nil =>
    intro rs out h
    cases rs with
    | nil => simp [writeResults] at h; simp [h.symm]
    | cons r rest => simp [writeResults] at h
  | cons ind indrest ih =>
    intro rs out h
    cases rs with
    | nil => simp [writeResults] at h; simp [h.symm]
    | cons r rest =>
      simp only [writeResults] at h
      cases hrec : writeResults w indrest rest with
      | error e => rw [hrec] at h; simp at h
      | ok rest' =>
        rw [hrec] at h
        simp only [Except.ok.injEq] at h
        obtain ⟨hle, hout⟩ := ih rest rest' hrec
        constructor
        · simpa using Nat.succ_le_succ hle
        · simp [h.symm, hout]

theorem writeResults_error_of_gt (w : List ℚ) :
    ∀ (rs : List EvalResult) (pop : List Individual), pop.length < rs.length →
      ∃ e, writeResults w pop rs = .error e := by
  intro rs
  induction rs with
  | nil => intro pop h; simp at h
  | cons r rest ih =>
    intro pop h
    cases pop with
    | nil => exact ⟨"IndexError: list index out of range", rfl⟩
    | cons ind indrest =>
      have h' : indrest.length < rest.length := by simpa using h
      obtain ⟨e, he⟩ := ih indrest h'
      exact ⟨e, by simp [writeResults, he]⟩

/-- Every individual coming out of the write-back loop is one of the
submitted individuals with (at most) its `outputs`, `fitness` and
`score` attributes rewritten: identity and lineage are untouched. -/
theorem writeResults_mem (w : List ℚ) :
    ∀ (pop : List Individual) (rs : List EvalResult) (out : List Individual),
      writeResults w pop rs = .ok out →
      ∀ p ∈ out, ∃ q ∈ pop, p.id = q.id ∧ p.parentIds = q.parentIds ∧ p.gIdx = q.gIdx := by
  intro pop
  induction pop with
  | nil =>
    intro rs out h p hp
    cases rs with
    | nil =>
      simp only [writeResults, Except.ok.injEq] at h
      subst h
      simp at hp
    | cons r rest => simp [writeResults] at h
  | cons ind indrest ih =>
    intro rs out h p hp
    cases rs with
    | nil =>
      simp [writeResults] at h
      subst h
      exact ⟨p, hp, rfl, rfl, rfl⟩
    | cons r rest =>
      simp only [writeResults] at h
      cases hrec : writeResults w indrest rest with
      | error e => rw [hrec] at h; simp at h
      | ok rest' =>
        rw [hrec] at h
        simp only [Except.ok.injEq] at h
        subst h
        rcases List.mem_cons.mp hp with rfl | hp'
        · exact ⟨ind, by simp, rfl, rfl, rfl⟩
        · obtain ⟨q, hq, hqf⟩ := ih rest rest' hrec p hp'
          exact ⟨q, by simp [hq], hqf⟩


theorem crossover_ok_spec (mate : Individual → Individual → Individual × Individual) :
    ∀ (offspring out : List Individual), crossover mate offspring = .ok out →
      out.length = offspring.length ∧
      (∀ i o1 o2, offspring[2 * i]? = some o1 → offspring[2 * i + 1]? = some o2 →
        ∃ ida idb, (mate o1 o2).1.id = some ida ∧ (mate o1 o2).2.id = some idb ∧
          out[2 * i]? = some { (mate o1 o2).1 with
                               fitness := none
                               parentIds := some (ida, idb)
                               id := none } ∧
          out[2 * i + 1]? = some { (mate o1 o2).2 with
                                   fitness := none
                                   parentIds := some (ida, idb)
                                   id := none }) ∧
      (offspring.length % 2 = 0 → ∀ p ∈ out, p.id = none) := by
  intro offspring
  induction offspring using crossover.induct with
  | mate a b => exact mate a b
  | case1 a b rest ida idb hidb hida e herr ih =>
    intro out h
    simp only [crossover, hida, hidb, herr] at h
    exact Except.noConfusion h
  | case2 a b rest ida idb hidb hida rest' hrec ih =>
    intro out h
    simp only [crossover, hida, hidb, hrec, Except.ok.injEq] at h
    subst h
    obtain ⟨ihlen, ihpt, ihid⟩ := ih rest' hrec
    refine ⟨by simp [ihlen], ?_, ?_⟩
    · intro i o1 o2 h1 h2
      cases i with
      | zero =>
        rw [show (2 : ℕ) * 0 = 0 from by norm_num] at h1 h2 ⊢
        simp only [List.getElem?_cons_zero, List.getElem?_cons_succ,
          Option.some.injEq] at h1 h2 ⊢
        subst h1; subst h2
        exact ⟨ida, idb, hida, hidb, rfl, rfl⟩
      | succ j =>
        have e1 : 2 * (j + 1) = 2 * j + 1 + 1 := by ring
        rw [e1] at h1 h2 ⊢
        simp only [List.getElem?_cons_succ] at h1 h2 ⊢
        exact ihpt j o1 o2 h1 h2
    · intro heven p hp
      have heven' : rest.length % 2 = 0 := by
        simp only [List.length_cons] at heven; omega
      rcases List.mem_cons.mp hp with rfl | hp'
      · rfl
      · rcases List.mem_cons.mp hp' with rfl | hp''
        · rfl
        · exact ihid heven' p hp''
  | case3 a b rest hfalse =>
    intro out h
    simp only [crossover] at h
    cases hida : (mate a b).1.id with
    | none => exact Except.noConfusion h
    | some ida =>
      cases hidb : (mate a b).2.id with
      | none => exact Except.noConfusion h
      | some idb => exact (hfalse ida idb hida hidb).elim
  | case4 xs hne =>
    intro out h
    match xs, hne with
    | [], _ =>
      simp only [crossover, Except.ok.injEq] at h
      subst h
      exact ⟨rfl, by intro i o1 o2 hc _; simp at hc, by intro _ p hp; simp at hp⟩
    | [x], _ =>
      simp only [crossover, Except.ok.injEq] at h
      subst h
      refine ⟨rfl, ?_, by intro heven; simp at heven⟩
      intro i o1 o2 hc1 hc2
      cases i with
      | zero => simp at hc2
      | succ j => rw [show 2 * (j + 1) = 2 * j + 1 + 1 by ring] at hc1; simp at hc1
    | a :: b :: rest, hne => exact (hne a b rest rfl).elim

theorem tagAssign_mem (g : ℕ) :
    ∀ (pop : List Individual) (last : ℕ) (p : Individual), p ∈ tagAssign last g pop →
      ∃ q ∈ pop, ∃ k, last ≤ k ∧ k < last + pop.length ∧
        p = { q with
              id := some k
              gIdx := some g
              simulation_stored := false } := by
  intro pop
  induction pop with
  | nil => intro last p hp; simp [tagAssign] at hp
  | cons q rest ih =>
    intro last p hp
    rcases List.mem_cons.mp hp with rfl | hp'
    · exact ⟨q, by simp, last, le_refl last, by simp, rfl⟩
    · obtain ⟨q', hq', k, hk1, hk2, hk3⟩ := ih (last + 1) p hp'
      exact ⟨q', by simp [hq'], k, by omega, by simp; omega, hk3⟩

theorem tagPopulation_ok_inv (g : ℕ) :
    ∀ (pop : List Individual) (last : ℕ) (out : List Individual) (lid : ℕ),
      tagPopulation last g pop = .ok (out, lid) →
      out = tagAssign last g pop ∧ lid = last + pop.length := by
  intro pop
  induction pop with
  | nil =>
    intro last out lid h
    simp only [tagPopulation, Except.ok.injEq, Prod.mk.injEq] at h
    exact ⟨h.1.symm, by simp [h.2.symm]⟩
  | cons p rest ih =>
    intro last out lid h
    simp only [tagPopulation] at h
    by_cases hp : p.id.isSome
    · simp [hp] at h
    · simp only [hp, Bool.false_eq_true, if_false] at h
      cases hrec : tagPopulation (last + 1) g rest with
      | error e => rw [hrec] at h; simp at h
      | ok pr =>
        rw [hrec] at h
        obtain ⟨rest', lid'⟩ := pr
        simp only [Except.ok.injEq, Prod.mk.injEq] at h
        obtain ⟨h1, h2⟩ := ih (last + 1) rest' lid' hrec
        refine ⟨?_, by simp; omega⟩
        rw [← h.1, tagAssign, h1]

theorem evalPopulation_ok_inv (w : List ℚ) (pop : List Individual) (rs : List EvalResult)
    (out : List Individual) (h : evalPopulationUsingPypet w pop rs = .ok out) :
    writeResults w pop rs = .ok out ∧ rs.length ≠ 0 := by
  unfold evalPopulationUsingPypet at h
  by_cases hz : rs.length = 0
  · simp [hz] at h
  · simp only [hz, if_false] at h
    exact ⟨h, hz⟩

theorem writeResults_get (w : List ℚ) :
    ∀ (pop : List Individual) (rs : List EvalResult) (out : List Individual),
      writeResults w pop rs = .ok out →
      out.length = pop.length ∧
      ∀ i (h1 : i < pop.length) (h2 : i < out.length),
        (out.get ⟨i, h2⟩).id = (pop.get ⟨i, h1⟩).id ∧
        (out.get ⟨i, h2⟩).parentIds = (pop.get ⟨i, h1⟩).parentIds ∧
        (out.get ⟨i, h2⟩).gIdx = (pop.get ⟨i, h1⟩).gIdx := by
  intro pop
  induction pop with
  | nil =>
    intro rs out h
    cases rs with
    | nil =>
      simp only [writeResults, Except.ok.injEq] at h
      subst h
      exact ⟨rfl, fun i h1 _ => absurd h1 (by simp)⟩
    | cons r rest => simp [writeResults] at h
  | cons ind indrest ih =>
    intro rs out h
    cases rs with
    | nil =>
      simp only [writeResults, Except.ok.injEq] at h
      subst h
      exact ⟨rfl, fun i h1 h2 => ⟨rfl, rfl, rfl⟩⟩
    | cons r rest =>
      simp only [writeResults] at h
      cases hrec : writeResults w indrest rest with
      | error e => rw [hrec] at h; simp at h
      | ok rest' =>
        rw [hrec] at h
        simp only [Except.ok.injEq] at h
        subst h
        obtain ⟨ihlen, ihpt⟩ := ih rest rest' hrec
        refine ⟨by simp [ihlen], ?_⟩
        intro i h1 h2
        cases i with
        | zero => exact ⟨rfl, rfl, rfl⟩
        | succ j =>
          have h1' : j < indrest.length := by simpa using h1
          have h2' : j < rest'.length := by simpa using h2
          exact ihpt j h1' h2'

theorem mem_take_of_pointwise (xs ys : List Individual) (n : ℕ)
    (hlen : ys.length = xs.length)
    (hpt : ∀ i (h1 : i < xs.length) (h2 : i < ys.length),
      (ys.get ⟨i, h2⟩).id = (xs.get ⟨i, h1⟩).id ∧
      (ys.get ⟨i, h2⟩).parentIds = (xs.get ⟨i, h1⟩).parentIds ∧
      (ys.get ⟨i, h2⟩).gIdx = (xs.get ⟨i, h1⟩).gIdx) :
    ∀ p ∈ ys.take n, ∃ q ∈ xs.take n,
      p.id = q.id ∧ p.parentIds = q.parentIds ∧ p.gIdx = q.gIdx := by
  intro p hp
  obtain ⟨j, hj, hget⟩ := List.mem_iff_getElem.mp hp
  have hjy : j < ys.length := by
    have := hj; simp only [List.length_take] at this; omega
  have hjx : j < xs.length := by omega
  have hjxt : j < (xs.take n).length := by
    simp only [List.length_take] at hj ⊢; omega
  have hyget : (ys.take n)[j] = ys.get ⟨j, hjy⟩ := by
    simp [List.getElem_take]
  have hxget : (xs.take n).get ⟨j, hjxt⟩ = xs.get ⟨j, hjx⟩ := by
    simp [List.getElem_take]
  refine ⟨(xs.take n).get ⟨j, hjxt⟩, List.get_mem _ _ _, ?_⟩
  rw [hxget, ← hget, hyget]
  exact hpt j hjx hjy

theorem mem_drop_of_pointwise (xs ys : List Individual) (n : ℕ)
    (hlen : ys.length = xs.length)
    (hpt : ∀ i (h1 : i < xs.length) (h2 : i < ys.length),
      (ys.get ⟨i, h2⟩).id = (xs.get ⟨i, h1⟩).id ∧
      (ys.get ⟨i, h2⟩).parentIds = (xs.get ⟨i, h1⟩).parentIds ∧
      (ys.get ⟨i, h2⟩).gIdx = (xs.get ⟨i, h1⟩).gIdx) :
    ∀ p ∈ ys.drop n, ∃ q ∈ xs.drop n,
      p.id = q.id ∧ p.parentIds = q.parentIds ∧ p.gIdx = q.gIdx := by
  intro p hp
  obtain ⟨j, hj, hget⟩ := List.mem_iff_getElem.mp hp
  have hjy : n + j < ys.length := by
    have := hj; simp only [List.length_drop] at this; omega
  have hjx : n + j < xs.length := by omega
  have hjxt : j < (xs.drop n).length := by
    simp only [List.length_drop] at hj ⊢; omega
  have hyget : (ys.drop n)[j] = ys.get ⟨n + j, hjy⟩ := by
    simp [List.getElem_drop]
  have hxget : (xs.drop n).get ⟨j, hjxt⟩ = xs.get ⟨n + j, hjx⟩ := by
    simp [List.getElem_drop]
  refine ⟨(xs.drop n).get ⟨j, hjxt⟩, List.get_mem _ _ _, ?_⟩
  rw [hxget, ← hget, hyget]
  exact hpt (n + j) hjx hjy

theorem newPopulation_length (ops : Operators) (g n : ℕ) :
    (newPopulation ops g n).length = n := by
  simp [newPopulation]

theorem newPopulation_mem (ops : Operators) (g n : ℕ) :
    ∀ p ∈ newPopulation ops g n, p.id = none ∧ p.parentIds = none := by
  intro p hp
  obtain ⟨i, _, rfl⟩ := List.mem_map.mp hp
  exact ⟨rfl, rfl⟩

/-- Full characterization of a successful generation step: the survivor
pool (also recorded in the history under `g`) consists of the valid
members of the previous population followed by the evaluated offspring
and the evaluated replacement individuals; the replacements number
exactly the invalid individuals and carry no lineage; all offspring and
replacements carry fresh ids at or above the previous id counter. -/
theorem generationStep_ok_spec (ops : Operators) (w : List ℚ) (POP g : ℕ)
    (st st' : EvolutionState) (h : generationStep ops w POP g st = .ok st') :
    ∃ offspringE newpopE,
      st'.history = st.history ++ [(g, getValidPopulation st.pop ++ offspringE ++ newpopE)] ∧
      st'.pop = ops.select (getValidPopulation st.pop ++ offspringE ++ newpopE) POP ∧
      st'.gIdx = g ∧
      st.last_id ≤ st'.last_id ∧
      newpopE.length = (getInvalidPopulation st.pop).length ∧
      (∀ p ∈ newpopE, p.parentIds = none) ∧
      (∀ p ∈ offspringE ++ newpopE,
        p.gIdx = some g ∧ ∃ k, p.id = some k ∧ st.last_id ≤ k) := by
  have hfresh : ∀ p ∈ newPopulation ops g (getInvalidPopulation st.pop).length, p.id = none :=
    fun p hp => (newPopulation_mem ops g _ p hp).1
  have htag1 := tagPopulation_ok_of_fresh g (newPopulation ops g (getInvalidPopulation st.pop).length) st.last_id hfresh
  simp only [generationStep, htag1] at h
  cases hcross : crossover ops.mate (ops.selectParents st.pop POP) with
  | error e =>
    simp only [hcross] at h
    exact Except.noConfusion h
  | ok crossed =>
    simp only [hcross] at h
    cases htag2 : tagPopulation (st.last_id + (newPopulation ops g (getInvalidPopulation st.pop).length).length) g
        (crossed.map fun ind => { ind with genome := ops.mutateGenome ind.genome }) with
    | error e =>
      simp only [htag2] at h
      exact Except.noConfusion h
    | ok pr =>
      obtain ⟨offspring, lid2⟩ := pr
      simp only [htag2] at h
      obtain ⟨hoff, hlid2⟩ := tagPopulation_ok_inv g _ _ _ _ htag2
      cases heval : evalPopulationUsingPypet w
          (offspring ++ tagAssign st.last_id g (newPopulation ops g (getInvalidPopulation st.pop).length))
          (ops.evalResults g
            (offspring ++ tagAssign st.last_id g (newPopulation ops g (getInvalidPopulation st.pop).length))) with
      | error e =>
        simp only [heval] at h
        exact Except.noConfusion h
      | ok evaluated =>
        simp only [heval, Except.ok.injEq] at h
        subst h
        obtain ⟨hwrite, _⟩ := evalPopulation_ok_inv w _ _ _ heval
        obtain ⟨hevlen, hevpt⟩ := writeResults_get w _ _ _ hwrite
        refine ⟨evaluated.take offspring.length, evaluated.drop offspring.length,
          rfl, rfl, rfl, ?_, ?_, ?_, ?_⟩
        · simp only
          omega
        · simp only [List.length_drop, hevlen, List.length_append,
            tagAssign_length, newPopulation_length]
          omega
        · intro p hp
          obtain ⟨q, hq, _, hqpar, _⟩ := mem_drop_of_pointwise _ _ offspring.length hevlen hevpt p hp
          rw [List.drop_left] at hq
          obtain ⟨q0, hq0, k, _, _, rfl⟩ := tagAssign_mem g _ _ _ hq
          rw [hqpar]
          exact (newPopulation_mem ops g _ q0 hq0).2
        · intro p hp
          rcases List.mem_append.mp hp with hpt | hpd
          · obtain ⟨q, hq, hqid, _, hqg⟩ := mem_take_of_pointwise _ _ offspring.length hevlen hevpt p hpt
            rw [List.take_left] at hq
            rw [hoff] at hq
            obtain ⟨q0, _, k, hk1, _, rfl⟩ := tagAssign_mem g _ _ _ hq
            exact ⟨by rw [hqg], k, by rw [hqid], by omega⟩
          · obtain ⟨q, hq, hqid, _, hqg⟩ := mem_drop_of_pointwise _ _ offspring.length hevlen hevpt p hpd
            rw [List.drop_left] at hq
            obtain ⟨q0, _, k, hk1, _, rfl⟩ := tagAssign_mem g _ _ _ hq
            exact ⟨by rw [hqg], k, by rw [hqid], by omega⟩

theorem runFoldStep_error (ops : Operators) (w : List ℚ) (POP : ℕ) :
    ∀ (gs : List ℕ) (e : String),
      gs.foldl (runFoldStep ops w POP) (.error e) = .error e := by
  intro gs
  induction gs with
  | nil => intro e; rfl
  | cons g rest ih => intro e; simp only [List.foldl_cons, runFoldStep, ih]

theorem runFold_history (ops : Operators) (w : List ℚ) (POP : ℕ) :
    ∀ (gs : List ℕ) (st st' : EvolutionState),
      gs.foldl (runFoldStep ops w POP) (.ok st) = .ok st' →
      st.history <+: st'.history ∧
        st'.history.length = st.history.length + gs.length := by
  intro gs
  induction gs with
  | nil =>
    intro st st' h
    simp only [List.foldl_nil, Except.ok.injEq] at h
    subst h
    exact ⟨List.prefix_refl _, rfl⟩
  | cons g rest ih =>
    intro st st' h
    simp only [List.foldl_cons] at h
    cases hstep : generationStep ops w POP g st with
    | error e =>
      rw [show runFoldStep ops w POP (.ok st) g = .error e from by
        simp [runFoldStep, hstep], runFoldStep_error] at h
      exact Except.noConfusion h
    | ok s1 =>
      rw [show runFoldStep ops w POP (.ok st) g = .ok s1 from by
        simp [runFoldStep, hstep]] at h
      obtain ⟨hpre, hlen⟩ := ih s1 st' h
      obtain ⟨oE, nE, hhist, _⟩ := generationStep_ok_spec ops w POP g st s1 hstep
      constructor
      · exact List.IsPrefix.trans ⟨_, hhist.symm⟩ hpre
      · rw [hlen, hhist]
        simp only [List.length_append, List.length_cons, List.length_nil]
        omega

theorem generationIndices_length (gIdx NGEN : ℕ) :
    (generationIndices gIdx NGEN).length = NGEN - 1 := by
  simp [generationIndices]

theorem runEvolution_history (ops : Operators) (w : List ℚ) (POP NGEN : ℕ)
    (st st' : EvolutionState) (h : runEvolution ops w POP NGEN st = .ok st') :
    st.history <+: st'.history ∧
      st'.history.length = st.history.length + (NGEN - 1) := by
  obtain ⟨hpre, hlen⟩ := runFold_history ops w POP (generationIndices st.gIdx NGEN) st st' h
  exact ⟨hpre, by rw [hlen, generationIndices_length]⟩

/-! ### Concrete fixtures used by witnesses and counterexamples -/

def sampleInd0 : Individual :=
  { genome := [0]
    id := some 0
    gIdx := some 0
    fitness := some [EFloat.fin 1]
    score := some (MaskedVal.val 1)
    outputs := some 0 }

def sampleInd1 : Individual :=
  { genome := [1]
    id := some 1
    gIdx := some 0
    fitness := some [EFloat.fin 2]
    score := some (MaskedVal.val 2)
    outputs := some 0 }

/-- A concrete, well-behaved operator set: identity-style parent and
survivor selection, a mating operator that returns its arguments, and a
backend that returns one finite result per submitted individual, in
submission order. -/
def sampleOps : Operators :=
  { selectParents := fun pop _ => pop
    mate := fun a b => (a, b)
    mutateGenome := fun gnm => gnm
    select := fun pool _ => pool
    newGenome := fun _ _ => []
    evalResults := fun _ sub => sub.map (fun p => (p.id.getD 0, ([EFloat.fin 1], 0))) }

/-- Same operators, but the backend reports NaN fitness for every
submitted individual. -/
def nanOps : Operators :=
  { sampleOps with evalResults := fun _ sub => sub.map (fun p => (p.id.getD 0, ([EFloat.nan], 0))) }

/-- A two-individual evolution state after the initial generation. -/
def sampleState : EvolutionState :=
  { pop := [sampleInd0, sampleInd1]
    last_id := 2
    gIdx := 0
    history := [(0, [sampleInd0, sampleInd1])]
    evaluationCounter := 2 }

theorem exists_ok_of_isOk {ε α : Type} {x : Except ε α} (h : x.isOk = true) :
    ∃ a, x = .ok a := by
  cases x with
  | error e => simp [Except.isOk, Except.toBool] at h
  | ok a => exact ⟨a, rfl⟩

theorem mem_getValidPopulation (pop : List Individual) (p : Individual) :
    p ∈ getValidPopulation pop ↔ p ∈ pop ∧ p.isInvalidInd = false := by
  simp [getValidPopulation, List.mem_filter]

theorem mem_getInvalidPopulation (pop : List Individual) (p : Individual) :
    p ∈ getInvalidPopulation pop ↔ p ∈ pop ∧ p.isInvalidInd = true := by
  simp [getInvalidPopulation, List.mem_filter]

theorem valid_invalid_length (pop : List Individual) :
    (getValidPopulation pop).length + (getInvalidPopulation pop).length = pop.length := by
  induction pop with
  | nil => rfl
  | cons p rest ih =>
    by_cases hp : p.isInvalidInd
    · simp [getValidPopulation, getInvalidPopulation, List.filter_cons, hp] at ih ⊢
      omega
    · simp [getValidPopulation, getInvalidPopulation, List.filter_cons, hp] at ih ⊢
      omega

theorem valid_invalid_count (pop : List Individual) (p : Individual) :
    pop.count p = (getValidPopulation pop).count p + (getInvalidPopulation pop).count p := by
  by_cases hp : p.isInvalidInd
  · rw [getInvalidPopulation, List.count_filter (by simp [hp])]
    have hz : (getValidPopulation pop).count p = 0 := by
      rw [List.count_eq_zero]
      intro hmem
      rw [mem_getValidPopulation] at hmem
      rw [hp] at hmem
      exact Bool.noConfusion hmem.2
    omega
  · simp only [Bool.not_eq_true] at hp
    rw [getValidPopulation, List.count_filter (by simp [hp])]
    have hz : (getInvalidPopulation pop).count p = 0 := by
      rw [List.count_eq_zero]
      intro hmem
      rw [mem_getInvalidPopulation] at hmem
      rw [hp] at hmem
      exact Bool.noConfusion hmem.2
    omega

/-- C10: for a population whose individuals all carry a fitness value,
`getValidPopulation` and `getInvalidPopulation` form an exact partition:
both are order-preserving sublists, their lengths (and per-individual
multiplicities) sum to the population's, and each member lands in
exactly one of the two lists — in the valid one precisely when its
fitness vector has no NaN/Inf component. -/
theorem valid_invalid_partition (pop : List Individual)
    (hall : ∀ p ∈ pop, p.fitness.isSome = true) :
    (getValidPopulation pop).Sublist pop ∧
    (getInvalidPopulation pop).Sublist pop ∧
    (getValidPopulation pop).length + (getInvalidPopulation pop).length = pop.length ∧
    (∀ p, pop.count p = (getValidPopulation pop).count p + (getInvalidPopulation pop).count p) ∧
    (∀ p ∈ pop, (p ∈ getValidPopulation pop ↔ p ∉ getInvalidPopulation pop)) ∧
    (∀ p ∈ pop, (p ∈ getValidPopulation pop ↔ ∀ x ∈ p.fitnessValues, x.isInvalid = false)) := by
  refine ⟨List.filter_sublist pop, List.filter_sublist pop, valid_invalid_length pop,
    valid_invalid_count pop, ?_, ?_⟩
  · intro p hp
    constructor
    · intro hv hi
      rw [mem_getValidPopulation] at hv
      rw [mem_getInvalidPopulation] at hi
      rw [hv.2] at hi
      exact Bool.noConfusion hi.2
    · intro hni
      cases hb : p.isInvalidInd with
      | true => exact absurd ((mem_getInvalidPopulation pop p).mpr ⟨hp, hb⟩) hni
      | false => exact (mem_getValidPopulation pop p).mpr ⟨hp, hb⟩
  · intro p hp
    rw [mem_getValidPopulation]
    constructor
    · intro hv x hx
      have := hv.2
      rw [Individual.isInvalidInd, List.any_eq_false] at this
      exact Bool.not_eq_true _ ▸ this x hx
    · intro hx
      refine ⟨hp, ?_⟩
      rw [Individual.isInvalidInd, List.any_eq_false]
      intro x hxm
      rw [hx x hxm]
      exact Bool.false_ne_true

/-- Witness for C10 on a concrete two-individual population. -/
theorem valid_invalid_partition_witness :
    (getValidPopulation [sampleInd0, sampleInd1]).length +
      (getInvalidPopulation [sampleInd0, sampleInd1]).length = 2 := by
  have h := valid_invalid_partition [sampleInd0, sampleInd1] (by decide)
  simpa using h.2.2.1

/-- C6: `tagPopulation` assigns each untagged individual the next
counter value in order (`last_id`, `last_id + 1`, …), records the
current generation index, marks `simulation_stored = false`, leaves the
genome and lineage untouched, returns the counter advanced past all
assigned ids (so ids are unique across a run's successive tagging
calls, all assigned ids lying below the returned counter), the assigned
ids are pairwise distinct — and tagging fails fast on any population
containing an individual that already carries an id. -/
theorem tagPopulation_unique_ids (last g : ℕ) (pop : List Individual) :
    ((∀ p ∈ pop, p.id = none) →
      tagPopulation last g pop = .ok (tagAssign last g pop, last + pop.length) ∧
      (tagAssign last g pop).length = pop.length ∧
      (∀ i (h1 : i < pop.length) (h2 : i < (tagAssign last g pop).length),
        ((tagAssign last g pop).get ⟨i, h2⟩).id = some (last + i) ∧
        ((tagAssign last g pop).get ⟨i, h2⟩).gIdx = some g ∧
        ((tagAssign last g pop).get ⟨i, h2⟩).simulation_stored = false ∧
        ((tagAssign last g pop).get ⟨i, h2⟩).genome = (pop.get ⟨i, h1⟩).genome ∧
        ((tagAssign last g pop).get ⟨i, h2⟩).parentIds = (pop.get ⟨i, h1⟩).parentIds) ∧
      ((tagAssign last g pop).map Individual.id).Nodup ∧
      (∀ p ∈ tagAssign last g pop, ∃ k, p.id = some k ∧ last ≤ k ∧ k < last + pop.length)) ∧
    ((∃ p ∈ pop, p.id.isSome) → ∃ e, tagPopulation last g pop = .error e) := by
  constructor
  · intro hfresh
    refine ⟨tagPopulation_ok_of_fresh g pop last hfresh, tagAssign_length g pop last,
      ?_, ?_, ?_⟩
    · intro i h1 h2
      rw [tagAssign_get g pop last i h1 h2]
      exact ⟨rfl, rfl, rfl, rfl, rfl⟩
    · rw [tagAssign_map_id g pop last]
      exact (List.nodup_range' last pop.length 1 Nat.one_pos).map (Option.some_injective ℕ)
    · intro p hp
      obtain ⟨q, hq, k, hk1, hk2, rfl⟩ := tagAssign_mem g pop last p hp
      exact ⟨k, rfl, hk1, hk2⟩
  · exact tagPopulation_error_of_tagged g pop last

/-- Witness for C6: tagging two fresh individuals from counter 5
succeeds and advances the counter to 7; tagging an already-tagged
individual fails. -/
theorem tagPopulation_unique_ids_witness :
    tagPopulation 5 3 [freshIndividual [0], freshIndividual [1]] =
      .ok (tagAssign 5 3 [freshIndividual [0], freshIndividual [1]], 7) ∧
    (∃ e, tagPopulation 5 3 [sampleInd0] = .error e) := by
  constructor
  · have h := (tagPopulation_unique_ids 5 3 [freshIndividual [0], freshIndividual [1]]).1
      (by decide)
    simpa using h.1
  · exact (tagPopulation_unique_ids 5 3 [sampleInd0]).2 ⟨sampleInd0, by simp, by decide⟩

/-- Counterexample to C5: for an individual whose whole fitness vector
is NaN (a plain failed evaluation under the default single positive
weight), the program stores the masked sentinel as the score —
`np.ma.masked_invalid([nan]).sum()` is `np.ma.masked`, not 0 — while
the claim's masked-to-zero mean evaluates to 0. -/
theorem evalPopulation_allinvalid_score_cex :
    (evalPopulationUsingPypet [1] [freshIndividual []] [(0, ([EFloat.nan], 3))]).map
      (fun out => out.map Individual.score) = .ok [some MaskedVal.masked] ∧
    specWeightedScore [1] [EFloat.nan] = 0 ∧
    MaskedVal.masked ≠ MaskedVal.val 0 := by
  refine ⟨rfl, ?_, by decide⟩
  norm_num [specWeightedScore, EFloat.scale]

/-- C5 (amended): on a successful evaluation round, every individual
that received a result carries that result's raw fitness vector
unchanged (NaN/Inf components included) and the result's simulation
output; its score equals the specification's masked-to-zero weighted
mean — the sum of the weighted fitness components with non-finite
components masked out, divided by the number of configured objectives —
whenever at least one weighted component is finite (or the vector is
empty); when the vector is nonempty and every weighted component is
NaN/Inf, the stored score is the masked sentinel, not 0. -/
theorem evalPopulation_score_spec (w : List ℚ) (pop : List Individual)
    (results : List EvalResult) (out : List Individual)
    (hw : ∀ r ∈ results, r.2.1.length = w.length)
    (h : evalPopulationUsingPypet w pop results = .ok out) :
    out.length = pop.length ∧
    ∀ i (h1 : i < results.length) (h2 : i < out.length),
      (out.get ⟨i, h2⟩).fitness = some (results.get ⟨i, h1⟩).2.1 ∧
      (out.get ⟨i, h2⟩).outputs = some (results.get ⟨i, h1⟩).2.2 ∧
      ((∃ x ∈ wvaluesOf w (results.get ⟨i, h1⟩).2.1, x.isInvalid = false) ∨
          wvaluesOf w (results.get ⟨i, h1⟩).2.1 = [] →
        (out.get ⟨i, h2⟩).score =
          some (MaskedVal.val (specWeightedScore w (results.get ⟨i, h1⟩).2.1))) ∧
      (wvaluesOf w (results.get ⟨i, h1⟩).2.1 ≠ [] →
        (∀ x ∈ wvaluesOf w (results.get ⟨i, h1⟩).2.1, x.isInvalid = true) →
        (out.get ⟨i, h2⟩).score = some MaskedVal.masked) := by
  obtain ⟨hwr, hne⟩ := evalPopulation_ok_inv w pop results out h
  obtain ⟨hle, hout⟩ := writeResults_ok_inv w pop results out hwr
  subst hout
  constructor
  · simp only [List.length_append, List.length_zipWith, List.length_drop]
    omega
  intro i h1 h2
  have hiz : i < (List.zipWith (applyResult w) pop results).length := by
    simp only [List.length_zipWith]
    omega
  have hip : i < pop.length := by omega
  have hgl : (List.zipWith (applyResult w) pop results ++ pop.drop results.length).get ⟨i, h2⟩
      = applyResult w (pop.get ⟨i, hip⟩) (results.get ⟨i, h1⟩) := by
    simp only [List.get_eq_getElem]
    rw [List.getElem_append_left hiz, List.getElem_zipWith]
  rw [hgl]
  have hsc : (applyResult w (pop.get ⟨i, hip⟩) (results.get ⟨i, h1⟩)).score
      = some (computeScore w (results.get ⟨i, h1⟩).2.1) := rfl
  refine ⟨rfl, rfl, ?_, ?_⟩
  · intro hfin
    rw [hsc, computeScore_eq_spec w _ (hw _ (List.get_mem results i h1)) hfin]
  · intro hnemp hall
    rw [hsc, computeScore_all_invalid w _ hnemp hall]

/-- Witness for C5 (amended): two individuals, one with a mixed
finite/NaN fitness (numeric masked mean) and one with an all-NaN
fitness (masked-sentinel score). -/
theorem evalPopulation_score_spec_witness :
    ∃ out, evalPopulationUsingPypet [1, 1] [freshIndividual [], freshIndividual []]
        [(0, ([EFloat.fin 2, EFloat.nan], 0)), (1, ([EFloat.nan, EFloat.nan], 0))] =
        .ok out ∧
      out.length = 2 ∧
      (∀ h2 : 0 < out.length,
        (out.get ⟨0, h2⟩).score =
          some (MaskedVal.val (specWeightedScore [1, 1] [EFloat.fin 2, EFloat.nan]))) ∧
      (∀ h2 : 1 < out.length, (out.get ⟨1, h2⟩).score = some MaskedVal.masked) := by
  obtain ⟨out, hout⟩ := exists_ok_of_isOk
    (show (evalPopulationUsingPypet [1, 1] [freshIndividual [], freshIndividual []]
      [(0, ([EFloat.fin 2, EFloat.nan], 0)), (1, ([EFloat.nan, EFloat.nan], 0))]).isOk
      = true from rfl)
  obtain ⟨hlen, hpt⟩ := evalPopulation_score_spec [1, 1]
    [freshIndividual [], freshIndividual []]
    [(0, ([EFloat.fin 2, EFloat.nan], 0)), (1, ([EFloat.nan, EFloat.nan], 0))] out
    (by decide) hout
  refine ⟨out, hout, by simpa using hlen, ?_, ?_⟩
  · intro h2
    exact (hpt 0 (by decide) h2).2.2.1 (by decide)
  · intro h2
    exact (hpt 1 (by decide) h2).2.2.2 (by decide) (by decide)

theorem writeResults_unchanged (w : List ℚ) :
    ∀ (pop : List Individual) (rs : List EvalResult) (out : List Individual),
      writeResults w pop rs = .ok out →
      ∀ i (h2 : i < out.length) (h3 : i < pop.length), rs.length ≤ i →
        out.get ⟨i, h2⟩ = pop.get ⟨i, h3⟩ := by
  intro pop
  induction pop with
  | nil => intro rs out h i h2 h3 _; exact absurd h3 (by simp)
  | cons ind indrest ih =>
    intro rs out h i h2 h3 hge
    cases rs with
    | nil =>
      simp only [writeResults, Except.ok.injEq] at h
      subst h
      rfl
    | cons r rest =>
      simp only [writeResults] at h
      cases hrec : writeResults w indrest rest with
      | error e => rw [hrec] at h; simp at h
      | ok rest' =>
        rw [hrec] at h
        simp only [Except.ok.injEq] at h
        subst h
        cases i with
        | zero => exact absurd hge (by simp)
        | succ j =>
          have h2' : j < rest'.length := by simpa using h2
          have h3' : j < indrest.length := by simpa using h3
          exact ih rest rest' hrec j h2' h3' (by simpa using hge)

/-- A four-individual tagged population awaiting evaluation. -/
def c2pop : List Individual :=
  [ { genome := [0], id := some 0 }, { genome := [1], id := some 1 },
    { genome := [2], id := some 2 }, { genome := [3], id := some 3 } ]

/-- Counterexample to C1: when the backend returns results out of
submission order, the write-back is positional, not id-matched.  Here
the result carrying `workUnitId = 1` (fitness `[10]`) is written onto
the individual whose id is `0`, while the result carrying
`workUnitId = 0` held fitness `[20] ≠ [10]`. -/
theorem evalPopulation_out_of_order_cex :
    (evalPopulationUsingPypet [1] [sampleInd0, sampleInd1]
        [(1, ([EFloat.fin 10], 7)), (0, ([EFloat.fin 20], 8))]).map
      (fun out => out.map (fun p => (p.id, p.fitness))) =
      .ok [(some 0, some [EFloat.fin 10]), (some 1, some [EFloat.fin 20])] ∧
    ([EFloat.fin 10] : List EFloat) ≠ [EFloat.fin 20] :=
  ⟨rfl, by decide⟩

/-- C1 (amended): each returned result is written back onto the
individual at the same position in the submitted population as the
result's position in the returned sequence (the result's `workUnitId`
is ignored); identity and the rest of the population are untouched, so
when the results arrive in submission order — result `i` carrying the
id of `pop[i]` — every result does land on the individual whose id
equals its `workUnitId`. -/
theorem evalPopulation_writeback_positional (w : List ℚ) (pop : List Individual)
    (results : List EvalResult) (h0 : 0 < results.length)
    (hle : results.length ≤ pop.length) :
    ∃ out, evalPopulationUsingPypet w pop results = .ok out ∧
      out.length = pop.length ∧
      (∀ i (h1 : i < results.length) (h2 : i < out.length) (h3 : i < pop.length),
        (out.get ⟨i, h2⟩).fitness = some (results.get ⟨i, h1⟩).2.1 ∧
        (out.get ⟨i, h2⟩).outputs = some (results.get ⟨i, h1⟩).2.2 ∧
        (out.get ⟨i, h2⟩).id = (pop.get ⟨i, h3⟩).id) ∧
      ((∀ i (h1 : i < results.length) (h3 : i < pop.length),
          (pop.get ⟨i, h3⟩).id = some (results.get ⟨i, h1⟩).1) →
        ∀ i (h1 : i < results.length) (h2 : i < out.length),
          (out.get ⟨i, h2⟩).id = some (results.get ⟨i, h1⟩).1) := by
  have heq : evalPopulationUsingPypet w pop results =
      .ok (List.zipWith (applyResult w) pop results ++ pop.drop results.length) := by
    unfold evalPopulationUsingPypet
    rw [if_neg (by omega)]
    exact writeResults_ok_of_le w results pop hle
  have hlen : (List.zipWith (applyResult w) pop results ++ pop.drop results.length).length
      = pop.length := by
    rw [List.length_append, List.length_zipWith, List.length_drop, Nat.min_eq_right hle]
    omega
  have hpt : ∀ i (h1 : i < results.length) (h3 : i < pop.length)
      (h2 : i < (List.zipWith (applyResult w) pop results ++ pop.drop results.length).length),
      (List.zipWith (applyResult w) pop results ++ pop.drop results.length).get ⟨i, h2⟩
        = applyResult w (pop.get ⟨i, h3⟩) (results.get ⟨i, h1⟩) := by
    intro i h1 h3 h2
    have hiz : i < (List.zipWith (applyResult w) pop results).length := by
      rw [List.length_zipWith, Nat.min_eq_right hle]
      omega
    simp only [List.get_eq_getElem]
    rw [List.getElem_append_left hiz, List.getElem_zipWith]
  refine ⟨_, heq, hlen, ?_, ?_⟩
  · intro i h1 h2 h3
    rw [hpt i h1 h3 h2]
    exact ⟨rfl, rfl, rfl⟩
  · intro hord i h1 h2
    have h3 : i < pop.length := by omega
    rw [hpt i h1 h3 h2]
    have : (applyResult w (pop.get ⟨i, h3⟩) (results.get ⟨i, h1⟩)).id
        = (pop.get ⟨i, h3⟩).id := rfl
    rw [this, hord i h1 h3]

/-- Witness for C1 (amended) on two individuals receiving in-order
results. -/
theorem evalPopulation_writeback_positional_witness :
    ∃ out, evalPopulationUsingPypet [1] [sampleInd0, sampleInd1]
        [(0, ([EFloat.fin 3], 5)), (1, ([EFloat.fin 4], 6))] = .ok out ∧
      out.length = 2 := by
  obtain ⟨out, h1, h2, _, _⟩ := evalPopulation_writeback_positional [1]
    [sampleInd0, sampleInd1] [(0, ([EFloat.fin 3], 5)), (1, ([EFloat.fin 4], 6))]
    (by decide) (by decide)
  exact ⟨out, h1, by simpa using h2⟩

/-- Counterexample to C2: the backend returns 3 results for 4 submitted
individuals, yet the call succeeds and writes partial fitness state
onto the first three individuals; no dispatch error is raised. -/
theorem evalPopulation_count_mismatch_cex :
    (evalPopulationUsingPypet [1] c2pop
        [(0, ([EFloat.fin 1], 0)), (1, ([EFloat.fin 2], 0)), (2, ([EFloat.fin 3], 0))]).map
      (fun out => out.map Individual.fitness) =
      .ok [some [EFloat.fin 1], some [EFloat.fin 2], some [EFloat.fin 3], none] := rfl

/-- C2 (amended): only an empty result sequence is a fatal dispatch
error; a nonzero result count smaller than the number of submitted
individuals is processed without abort, writing results positionally
onto the first individuals and leaving the rest untouched; a result
count larger than the population aborts with an index error. -/
theorem evalPopulation_result_count_policy :
    (∀ (w : List ℚ) (pop : List Individual),
      evalPopulationUsingPypet w pop [] = .error "No results returned from simulations.") ∧
    (∀ (w : List ℚ) (pop : List Individual) (results : List EvalResult),
      0 < results.length → results.length ≤ pop.length →
      ∃ out, evalPopulationUsingPypet w pop results = .ok out ∧
        out.length = pop.length ∧
        (∀ i (h1 : i < results.length) (h2 : i < out.length),
          (out.get ⟨i, h2⟩).fitness = some (results.get ⟨i, h1⟩).2.1) ∧
        (∀ i (h2 : i < out.length) (h3 : i < pop.length), results.length ≤ i →
          out.get ⟨i, h2⟩ = pop.get ⟨i, h3⟩)) ∧
    (∀ (w : List ℚ) (pop : List Individual) (results : List EvalResult),
      pop.length < results.length → ∃ e, evalPopulationUsingPypet w pop results = .error e) := by
  refine ⟨fun w pop => rfl, ?_, ?_⟩
  · intro w pop results h0 hle
    obtain ⟨out, heq, hlen, hpt, _⟩ := evalPopulation_writeback_positional w pop results h0 hle
    refine ⟨out, heq, hlen, ?_, ?_⟩
    · intro i h1 h2
      have h3 : i < pop.length := by omega
      exact (hpt i h1 h2 h3).1
    · intro i h2 h3 hge
      obtain ⟨hwr, _⟩ := evalPopulation_ok_inv w pop results out heq
      exact writeResults_unchanged w pop results out hwr i h2 h3 hge
  · intro w pop results hgt
    obtain ⟨e, he⟩ := writeResults_error_of_gt w results pop hgt
    refine ⟨e, ?_⟩
    unfold evalPopulationUsingPypet
    rw [if_neg (by omega)]
    exact he

/-- Witness for C2 (amended): 3 results for 4 individuals are written
partially and the call returns successfully. -/
theorem evalPopulation_result_count_policy_witness :
    ∃ out, evalPopulationUsingPypet [1] c2pop
        [(0, ([EFloat.fin 1], 0)), (1, ([EFloat.fin 2], 0)), (2, ([EFloat.fin 3], 0))] =
        .ok out ∧ out.length = 4 := by
  obtain ⟨out, h1, h2, _, _⟩ := evalPopulation_result_count_policy.2.1 [1] c2pop
    [(0, ([EFloat.fin 1], 0)), (1, ([EFloat.fin 2], 0)), (2, ([EFloat.fin 3], 0))]
    (by decide) (by decide)
  exact ⟨out, h1, by simpa [c2pop] using h2⟩

/-- A state whose second individual has NaN fitness (one invalid). -/
def invalidState : EvolutionState :=
  { pop := [sampleInd0, { sampleInd1 with fitness := some [EFloat.nan] }]
    last_id := 2
    gIdx := 0
    history := [(0, [sampleInd0])]
    evaluationCounter := 2 }

/-- Counterexample to C3: starting from generation index 0 with
`NGEN = 2`, the loop header `range(gIdx + 1, gIdx + NGEN)` yields a
single generation index, and a concrete run appends exactly one new
history entry — the loop body runs once, not `NGEN = 2` times. -/
theorem generation_count_cex :
    (generationIndices 0 2).length = 1 ∧
    (runEvolution sampleOps [1] 2 2 sampleState).map (fun s => s.history.length) = .ok 2 ∧
    sampleState.history.length = 1 ∧ (2 : ℕ) ≠ 1 + 2 :=
  ⟨rfl, rfl, rfl, by decide⟩

/-- C3 (amended): after the bootstrap generation, the generational loop
of `runEvolution` executes its body exactly `NGEN - 1` times — the loop
header iterates over `NGEN - 1` generation indices, and a successful
run appends exactly `NGEN - 1` history entries. -/
theorem runEvolution_generation_count (ops : Operators) (w : List ℚ) (POP NGEN : ℕ)
    (st st' : EvolutionState) (h : runEvolution ops w POP NGEN st = .ok st') :
    (generationIndices st.gIdx NGEN).length = NGEN - 1 ∧
    st'.history.length = st.history.length + (NGEN - 1) :=
  ⟨generationIndices_length st.gIdx NGEN, (runEvolution_history ops w POP NGEN st st' h).2⟩

/-- Witness for C3 (amended): a 3-generation run appends 2 history
entries. -/
theorem runEvolution_generation_count_witness :
    ∃ st', runEvolution sampleOps [1] 2 3 sampleState = .ok st' ∧
      st'.history.length = 1 + (3 - 1) := by
  obtain ⟨st', hst⟩ := exists_ok_of_isOk
    (show (runEvolution sampleOps [1] 2 3 sampleState).isOk = true from rfl)
  have h := runEvolution_generation_count sampleOps [1] 2 3 sampleState st' hst
  exact ⟨st', hst, by rw [h.2]; rfl⟩

/-- Counterexample to C4: with a backend reporting NaN fitness for the
freshly evaluated offspring, the candidate pool recorded for the
generation (the very pool handed to the survivor-selection operator)
contains an invalid individual, and with an admissible survivor
operator the next generation's population contains it too. -/
theorem survivor_pool_invalid_cex :
    (generationStep nanOps [1] 2 1 sampleState).map
      (fun s => s.pop.any Individual.isInvalidInd) = .ok true ∧
    (generationStep nanOps [1] 2 1 sampleState).map
      (fun s => ((s.history.getLast?).map
        (fun e => e.2.any Individual.isInvalidInd)).getD false) = .ok true :=
  ⟨rfl, rfl⟩

/-- An individual of the previous population (id below the counter)
cannot coincide with any freshly tagged offspring or replacement (ids
at or above the counter): an invalid pre-triage individual is therefore
absent from the whole recorded pool. -/
theorem invalid_excluded_of_fresh (pop : List Individual) (last : ℕ)
    (oE nE : List Individual)
    (hids : ∀ q ∈ pop, ∃ k, q.id = some k ∧ k < last)
    (hfresh : ∀ p ∈ oE ++ nE, ∃ k, p.id = some k ∧ last ≤ k) :
    ∀ p ∈ getInvalidPopulation pop, p ∉ getValidPopulation pop ++ oE ++ nE := by
  intro p hp hmem
  obtain ⟨hpop, hinv⟩ := (mem_getInvalidPopulation pop p).mp hp
  rcases List.mem_append.mp hmem with hmem1 | hmem2
  · rcases List.mem_append.mp hmem1 with hv | ho
    · rw [((mem_getValidPopulation pop p).mp hv).2] at hinv
      exact Bool.noConfusion hinv
    · obtain ⟨k, hk, hk2⟩ := hfresh p (List.mem_append.mpr (Or.inl ho))
      obtain ⟨k2, hk3, hk4⟩ := hids p hpop
      rw [hk] at hk3
      injection hk3 with hk3
      omega
  · obtain ⟨k, hk, hk2⟩ := hfresh p (List.mem_append.mpr (Or.inr hmem2))
    obtain ⟨k2, hk3, hk4⟩ := hids p hpop
    rw [hk] at hk3
    injection hk3 with hk3
    omega

/-- C4 (amended): only the valid members of the previous population are
carried into the survivor pool, so an individual that was invalid at
the start of a generation never enters the pool; offspring and
replacements evaluated within the generation, however, enter the pool
regardless of validity, and any invalid ones among them are excluded
from the valid set at the next generation's triage. -/
theorem survivor_pool_triage (ops : Operators) (w : List ℚ) (POP g : ℕ)
    (st st' : EvolutionState)
    (hids : ∀ q ∈ st.pop, ∃ k, q.id = some k ∧ k < st.last_id)
    (h : generationStep ops w POP g st = .ok st') :
    ∃ offspringE newpopE,
      st'.history = st.history ++ [(g, getValidPopulation st.pop ++ offspringE ++ newpopE)] ∧
      st'.pop = ops.select (getValidPopulation st.pop ++ offspringE ++ newpopE) POP ∧
      (∀ p ∈ getValidPopulation st.pop, p.isInvalidInd = false) ∧
      (∀ p ∈ getInvalidPopulation st.pop,
        p ∉ getValidPopulation st.pop ++ offspringE ++ newpopE) ∧
      (∀ (pool : List Individual) (p : Individual),
        p ∈ getValidPopulation pool → p.isInvalidInd = false) := by
  obtain ⟨oE, nE, h1, h2, _, _, _, _, hid⟩ := generationStep_ok_spec ops w POP g st st' h
  refine ⟨oE, nE, h1, h2, ?_, ?_, ?_⟩
  · intro p hp
    exact ((mem_getValidPopulation st.pop p).mp hp).2
  · exact invalid_excluded_of_fresh st.pop st.last_id oE nE hids
      (fun p hp => (hid p hp).2)
  · intro pool p hp
    exact ((mem_getValidPopulation pool p).mp hp).2

/-- Witness for C4 (amended) on a concrete step. -/
theorem survivor_pool_triage_witness :
    ∃ st', generationStep sampleOps [1] 2 1 sampleState = .ok st' ∧
      ∃ oE nE, st'.history = sampleState.history ++
        [(1, getValidPopulation sampleState.pop ++ oE ++ nE)] := by
  obtain ⟨st', hst⟩ := exists_ok_of_isOk
    (show (generationStep sampleOps [1] 2 1 sampleState).isOk = true from rfl)
  obtain ⟨oE, nE, h1, _⟩ := survivor_pool_triage sampleOps [1] 2 1 sampleState st'
    (by decide) hst
  exact ⟨st', hst, oE, nE, h1⟩

/-- C7: in every successful generation step, the replace step creates
exactly as many replacement individuals as there are invalid
individuals in the current population; the replacements carry no
`parentIds` and only fresh ids (at or above the current id counter, so
they are brand-new, not recycled); the invalid individuals themselves
are not carried forward into the valid set. -/
theorem replace_step_fresh (ops : Operators) (w : List ℚ) (POP g : ℕ)
    (st st' : EvolutionState) (h : generationStep ops w POP g st = .ok st') :
    ∃ offspringE newpopE,
      st'.history = st.history ++ [(g, getValidPopulation st.pop ++ offspringE ++ newpopE)] ∧
      newpopE.length = (getInvalidPopulation st.pop).length ∧
      (∀ p ∈ newpopE, p.parentIds = none) ∧
      (∀ p ∈ newpopE, ∃ k, p.id = some k ∧ st.last_id ≤ k) ∧
      (∀ p ∈ getInvalidPopulation st.pop, p ∉ getValidPopulation st.pop) := by
  obtain ⟨oE, nE, h1, _, _, _, h5, h6, h7⟩ := generationStep_ok_spec ops w POP g st st' h
  refine ⟨oE, nE, h1, h5, h6, ?_, ?_⟩
  · intro p hp
    exact (h7 p (List.mem_append.mpr (Or.inr hp))).2
  · intro p hp hv
    obtain ⟨_, hinv⟩ := (mem_getInvalidPopulation st.pop p).mp hp
    rw [((mem_getValidPopulation st.pop p).mp hv).2] at hinv
    exact Bool.noConfusion hinv

/-- Witness for C7: a step from a state with one invalid individual
creates exactly one parent-less replacement. -/
theorem replace_step_fresh_witness :
    ∃ st', generationStep sampleOps [1] 2 1 invalidState = .ok st' ∧
      ∃ oE nE : List Individual, nE.length = 1 ∧ ∀ p ∈ nE, p.parentIds = none := by
  obtain ⟨st', hst⟩ := exists_ok_of_isOk
    (show (generationStep sampleOps [1] 2 1 invalidState).isOk = true from rfl)
  obtain ⟨oE, nE, _, h2, h3, _, _⟩ := replace_step_fresh sampleOps [1] 2 1 invalidState st' hst
  exact ⟨st', hst, oE, nE, by rw [h2]; rfl, h3⟩

/-- C9: the history entry recorded under generation `g` is exactly the
valid pre-triage individuals — the carried-forward portion is the valid
filter of the prior population, not the whole prior population, and no
pre-triage invalid individual appears anywhere in the entry — followed
by this generation's evaluated offspring and replacements, all of which
are new individuals tagged with generation `g` and fresh ids at or
above the previous id counter, the replacements numbering exactly the
invalid individuals and carrying no lineage; and the entry is appended
after the existing entries: across a whole run the history is
append-only, the entries present before the run remaining a prefix of
the entries after it. -/
theorem history_record_append_only :
    (∀ (ops : Operators) (w : List ℚ) (POP g : ℕ) (st st' : EvolutionState),
      (∀ q ∈ st.pop, ∃ k, q.id = some k ∧ k < st.last_id) →
      generationStep ops w POP g st = .ok st' →
      ∃ offspringE newpopE,
        st'.history = st.history ++ [(g, getValidPopulation st.pop ++ offspringE ++ newpopE)] ∧
        newpopE.length = (getInvalidPopulation st.pop).length ∧
        (∀ p ∈ newpopE, p.parentIds = none) ∧
        (∀ p ∈ offspringE ++ newpopE,
          p.gIdx = some g ∧ ∃ k, p.id = some k ∧ st.last_id ≤ k) ∧
        (∀ p ∈ getInvalidPopulation st.pop,
          p ∉ getValidPopulation st.pop ++ offspringE ++ newpopE)) ∧
    (∀ (ops : Operators) (w : List ℚ) (POP NGEN : ℕ) (st st' : EvolutionState),
      runEvolution ops w POP NGEN st = .ok st' → st.history <+: st'.history) := by
  constructor
  · intro ops w POP g st st' hids h
    obtain ⟨oE, nE, h1, _, _, _, h5, h6, h7⟩ := generationStep_ok_spec ops w POP g st st' h
    exact ⟨oE, nE, h1, h5, h6, h7,
      invalid_excluded_of_fresh st.pop st.last_id oE nE hids (fun p hp => (h7 p hp).2)⟩
  · intro ops w POP NGEN st st' h
    exact (runEvolution_history ops w POP NGEN st st' h).1

/-- Witness for C9 on a concrete step and run. -/
theorem history_record_append_only_witness :
    (∃ st2, generationStep sampleOps [1] 2 1 sampleState = .ok st2 ∧
      ∃ oE nE, st2.history = sampleState.history ++
        [(1, getValidPopulation sampleState.pop ++ oE ++ nE)]) ∧
    ∃ st', runEvolution sampleOps [1] 2 2 sampleState = .ok st' ∧
      sampleState.history <+: st'.history := by
  constructor
  · obtain ⟨st2, hst⟩ := exists_ok_of_isOk
      (show (generationStep sampleOps [1] 2 1 sampleState).isOk = true from rfl)
    obtain ⟨oE, nE, h1, _⟩ := history_record_append_only.1 sampleOps [1] 2 1 sampleState st2
      (by decide) hst
    exact ⟨st2, hst, oE, nE, h1⟩
  · obtain ⟨st', hst⟩ := exists_ok_of_isOk
      (show (runEvolution sampleOps [1] 2 2 sampleState).isOk = true from rfl)
    exact ⟨st', hst, history_record_append_only.2 sampleOps [1] 2 2 sampleState st' hst⟩

/-- C8: offspring are processed in consecutive pairs; each pair is
replaced by the mating operator's output on the two parents, with the
fitness values inherited from the parents deleted (so the children must
be evaluated fresh), `parentIds` set to the pair of the two parents'
ids on both children, and the children's own ids deleted; for an even
offspring count the subsequent tagging then succeeds and reassigns
fresh consecutive ids while preserving the recorded `parentIds`. -/
theorem crossover_pairs (mate : Individual → Individual → Individual × Individual)
    (offspring out : List Individual)
    (hmate : ∀ a b, (mate a b).1.id = a.id ∧ (mate a b).2.id = b.id)
    (h : crossover mate offspring = .ok out) :
    out.length = offspring.length ∧
    (∀ i o1 o2, offspring[2 * i]? = some o1 → offspring[2 * i + 1]? = some o2 →
      ∃ ida idb, o1.id = some ida ∧ o2.id = some idb ∧
        out[2 * i]? = some { (mate o1 o2).1 with
                             fitness := none
                             parentIds := some (ida, idb)
                             id := none } ∧
        out[2 * i + 1]? = some { (mate o1 o2).2 with
                                 fitness := none
                                 parentIds := some (ida, idb)
                                 id := none }) ∧
    (offspring.length % 2 = 0 →
      (∀ p ∈ out, p.id = none) ∧
      ∀ last g,
        tagPopulation last g out = .ok (tagAssign last g out, last + out.length) ∧
        ∀ i (h1 : i < out.length) (h2 : i < (tagAssign last g out).length),
          ((tagAssign last g out).get ⟨i, h2⟩).id = some (last + i) ∧
          ((tagAssign last g out).get ⟨i, h2⟩).parentIds = (out.get ⟨i, h1⟩).parentIds) := by
  obtain ⟨h1, h2, h3⟩ := crossover_ok_spec mate offspring out h
  refine ⟨h1, ?_, ?_⟩
  · intro i o1 o2 ho1 ho2
    obtain ⟨ida, idb, hida, hidb, hout1, hout2⟩ := h2 i o1 o2 ho1 ho2
    refine ⟨ida, idb, ?_, ?_, hout1, hout2⟩
    · rw [← (hmate o1 o2).1]; exact hida
    · rw [← (hmate o1 o2).2]; exact hidb
  · intro heven
    have hfresh := h3 heven
    refine ⟨hfresh, fun last g => ⟨tagPopulation_ok_of_fresh g out last hfresh, ?_⟩⟩
    intro i hi1 hi2
    rw [tagAssign_get g out last i hi1 hi2]
    exact ⟨rfl, rfl⟩

/-- Witness for C8 on a concrete pair of tagged parents with an
id-preserving mating operator. -/
theorem crossover_pairs_witness :
    ∃ out, crossover (fun a b => (a, b)) [sampleInd0, sampleInd1] = .ok out ∧
      out.length = 2 ∧ ∀ p ∈ out, p.id = none := by
  obtain ⟨out, hout⟩ := exists_ok_of_isOk
    (show (crossover (fun a b => (a, b)) [sampleInd0, sampleInd1]).isOk = true from rfl)
  obtain ⟨h1, h2, h3⟩ := crossover_pairs (fun a b => (a, b)) [sampleInd0, sampleInd1] out
    (fun a b => ⟨rfl, rfl⟩) hout
  exact ⟨out, hout, by simpa using h1, (h3 (by decide)).1⟩
